import Mathlib

/-!
Shallow embedding of the DCA / SDCA simulation engine of `app.py`
(`aggregate_prices`, `simulate_standard_dca`, `simulate_sdca`) together with
proofs of the specification's testable properties.

Modelling conventions:
* Timestamps are modelled as natural numbers counting days since 1970-01-01
  (so day 0 is a Thursday and day 3, 1970-01-04, is a Sunday); prices and
  dollar amounts, Python `float`s in the source, are idealized as exact
  rationals `ℚ`.
* `pandas` raises a `KeyError` when `pd.DataFrame(rows).sort_values("Date")`
  is applied to an empty row list (the empty frame has no columns); fallible
  paths are therefore modelled with `Except String`.
* The input `PriceSeries` is produced by the loader already sorted with
  unique timestamps (spec §3), so `sort_index` / `sort_values` are the
  identity on the lists handled here; theorems that depend on order carry the
  §3 sortedness invariant as an explicit hypothesis.
-/

/-- Day-number of the first Sunday on or after day `z` (day 3 = 1970-01-04 is
a Sunday).  This is the right edge of the `pandas` `W-SUN` resampling bin that
contains `z`, i.e. the label `s.resample("W-SUN")` gives to `z`'s bucket. -/
def nextSunday (z : ℕ) : ℕ := z + (10 - z % 7) % 7

/-- Gregorian leap-year rule. -/
def isLeap (y : ℕ) : Bool := (y % 4 == 0 && y % 100 != 0) || (y % 400 == 0)

/-- Length in days of the `i`-th calendar month counting from January 1970. -/
def monthLen (i : ℕ) : ℕ :=
  let y := 1970 + i / 12
  let m := i % 12
  if m = 1 then (if isLeap y then 29 else 28)
  else if m = 3 ∨ m = 5 ∨ m = 8 ∨ m = 10 then 30
  else 31

/-- Day-number of the first day of the `i`-th calendar month after 1970-01. -/
def monthStart : ℕ → ℕ
  | 0 => 0
  | i + 1 => monthStart i + monthLen i

/-- Scan for the calendar month containing day `z`, starting from month `i`. -/
def monthIdxGo (z : ℕ) : ℕ → ℕ → ℕ
  | 0, i => i
  | fuel + 1, i => if z < monthStart (i + 1) then i else monthIdxGo z fuel (i + 1)

/-- Index (months since January 1970) of the calendar month containing day `z`. -/
def monthIdx (z : ℕ) : ℕ := monthIdxGo z (z + 1) 0

/-- Day-number of the last day of the calendar month containing day `z`: the
label `pandas` `resample("M")` gives to `z`'s bucket. -/
def monthEnd (z : ℕ) : ℕ := monthStart (monthIdx z + 1) - 1

/-- One input sample: `(timestamp, close price)`. -/
abbrev Sample : Type := ℕ × ℚ

/-- Tail of `resample(rule).last().dropna()` on a sorted series: `cur` is the
sample currently closing its bucket; a new sample in the same bucket (equal
label under `f`) replaces `cur`, a sample in a later bucket emits
`(label, price)` for the finished bucket. -/
def rGo (f : ℕ → ℕ) (cur : Sample) : List Sample → List Sample
  | [] => [(f cur.1, cur.2)]
  | x :: rest =>
    if f x.1 = f cur.1 then rGo f x rest
    else (f cur.1, cur.2) :: rGo f x rest

/-- Embedding of `s.resample(rule).last().dropna()` for a label function `f`
mapping a timestamp to its bucket's right-edge label: one output row per
non-empty bucket, carrying the bucket label and the price of the bucket's
chronologically last sample. -/
def resampleLast (f : ℕ → ℕ) : List Sample → List Sample
  | [] => []
  | x :: rest => rGo f x rest

/-- Embedding of `aggregate_prices` (app.py lines 94-106).  The empty-frame
check precedes the frequency dispatch, and an unknown frequency raises
`ValueError` (modelled as `Except.error`). -/
def aggregate_prices (df : List Sample) (frequency : String) : Except String (List Sample) :=
  if df = [] then .ok []
  else if frequency = "Daily" then .ok df
  else if frequency = "Weekly" then .ok (resampleLast nextSunday df)
  else if frequency = "Monthly" then .ok (resampleLast monthEnd df)
  else .error ("Unknown frequency: " ++ frequency)

/-- Bucket-label function used by each frequency: identity for `Daily`,
week-ending Sunday for `Weekly`, calendar month end for `Monthly`. -/
def bucketOf : String → ℕ → ℕ
  | "Weekly" => nextSunday
  | "Monthly" => monthEnd
  | _ => fun t => t

/-- One row appended to `rows` per processed interval (the dict literals at
app.py lines 117-121 and 172-176). -/
structure Row where
  date : ℕ
  price : ℚ
  invest : ℚ
  units : ℚ
  cumUnits : ℚ
  totalInvested : ℚ
  action : String
  skipsLeft : ℕ
  mult : ℕ
  deriving Repr, DecidableEq

/-- A row of the final ledger, after the two projection columns
`PortfolioValue` and `ROI_%` are added (app.py lines 122-125 / 180-183). -/
structure LedgerRow where
  date : ℕ
  price : ℚ
  invest : ℚ
  units : ℚ
  cumUnits : ℚ
  totalInvested : ℚ
  action : String
  skipsLeft : ℕ
  mult : ℕ
  portfolioValue : ℚ
  roiPercent : ℚ
  deriving Repr, DecidableEq

/-- Projection pass shared by both simulators:
`out["PortfolioValue"] = out["CumUnits"] * out["Price"]` and
`out["ROI_%"] = np.where(out["TotalInvested"] > 0, (PV/TI - 1) * 100, 0)`. -/
def addProjection (r : Row) : LedgerRow :=
  { date := r.date, price := r.price, invest := r.invest, units := r.units,
    cumUnits := r.cumUnits, totalInvested := r.totalInvested,
    action := r.action, skipsLeft := r.skipsLeft, mult := r.mult,
    portfolioValue := r.cumUnits * r.price,
    roiPercent :=
      if 0 < r.totalInvested
      then (r.cumUnits * r.price / r.totalInvested - 1) * 100
      else 0 }

/-- Row-building loop of `simulate_standard_dca` (app.py lines 109-121). -/
def stdGo (base : ℚ) (cumUnits totalInvested : ℚ) : List Sample → List Row
  | [] => []
  | (dt, price) :: rest =>
    let invest := base
    let units := invest / price
    let cu := cumUnits + units
    let ti := totalInvested + invest
    ⟨dt, price, invest, units, cu, ti, "base", 0, 1⟩ :: stdGo base cu ti rest

/-- Embedding of `simulate_standard_dca` (app.py lines 108-126).  On an empty
series `pd.DataFrame([])` has no columns and `sort_values("Date")` raises
`KeyError`, modelled as `Except.error`. -/
def simulate_standard_dca (prices : List Sample) (base : ℚ) :
    Except String (List LedgerRow) :=
  let rows := stdGo base 0 0 prices
  if rows = [] then .error "KeyError: Date"
  else .ok (rows.map addProjection)

/-- The f-string `f"skip ({skip} left)"` with the pre-decrement skip count. -/
def skipAction (n : ℕ) : String := "skip (" ++ toString n ++ " left)"

/-- The f-string `f"dip {k}× → buy {mult}×, skip {k}"`. -/
def dipAction (k mult : ℕ) : String :=
  "dip " ++ toString k ++ "× → buy " ++ toString mult ++ "×, skip " ++ toString k

/-- Mutable loop state of `simulate_sdca`: `prev_price`, `skip`, `cum_units`,
`total_invested` (app.py lines 135-138). -/
structure SState where
  prev : Option ℚ
  skip : ℕ
  cumUnits : ℚ
  totalInvested : ℚ
  deriving Repr, DecidableEq

/-- The dip multiplier count: `k = math.floor(abs(change) / g)` clamped by
`if max_k is not None and max_k > 0: k = min(k, max_k)` (app.py lines
155-157). -/
def dipK (g change : ℚ) (max_k : Option ℤ) : ℕ :=
  let k0 : ℕ := (⌊|change| / g⌋).toNat
  match max_k with
  | some mk => if 0 < mk then min k0 mk.toNat else k0
  | none => k0

/-- Branch logic of one `simulate_sdca` loop iteration (app.py lines 142-166):
returns `(action, mult, invest, skip-after)` for the current price given the
carried state.  `g` is the dip threshold as a fraction. -/
def sdcaDecide (base g : ℚ) (max_k : Option ℤ) (st : SState) (price : ℚ) :
    String × ℕ × ℚ × ℕ :=
  match st.prev with
  | none => ("base (first)", 1, base, st.skip)
  | some prev_price =>
    if 0 < st.skip then
      (skipAction st.skip, 1, 0, st.skip - 1)
    else
      let change : ℚ := if prev_price ≠ 0 then (price - prev_price) / prev_price else 0
      if change < 0 ∧ 0 < g then
        let k : ℕ := dipK g change max_k
        if 0 < k then (dipAction k (1 + k), 1 + k, base * ((1 + k : ℕ) : ℚ), k)
        else ("base", 1, base, st.skip)
      else ("base", 1, base, st.skip)

/-- One full `simulate_sdca` loop iteration: the branch decision, the shared
tail `units = invest / price if invest > 0 else 0.0`, the accumulator updates,
the appended row, and the unconditional `prev_price = price` (app.py line
178). -/
def sdcaStep (base g : ℚ) (max_k : Option ℤ) (st : SState) (x : Sample) :
    SState × Row :=
  let d := sdcaDecide base g max_k st x.2
  let invest := d.2.2.1
  let skip' := d.2.2.2
  let units := if 0 < invest then invest / x.2 else 0
  let cu := st.cumUnits + units
  let ti := st.totalInvested + invest
  (⟨some x.2, skip', cu, ti⟩,
   ⟨x.1, x.2, invest, units, cu, ti, d.1, skip', d.2.1⟩)

/-- Row-building loop of `simulate_sdca` (app.py lines 141-178). -/
def sdcaGo (base g : ℚ) (max_k : Option ℤ) (st : SState) : List Sample → List Row
  | [] => []
  | x :: rest =>
    (sdcaStep base g max_k st x).2 :: sdcaGo base g max_k (sdcaStep base g max_k st x).1 rest

/-- Trace of loop states of `simulate_sdca`: entry `i` is the state before the
`i`-th interval is processed (so entry `length` is the final state). -/
def sdcaStates (base g : ℚ) (max_k : Option ℤ) (st : SState) : List Sample → List SState
  | [] => [st]
  | x :: rest => st :: sdcaStates base g max_k (sdcaStep base g max_k st x).1 rest

/-- The fraction `g = threshold_pct / 100.0 if threshold_pct else 0.0`
(app.py line 139). -/
def sdcaG (threshold_pct : ℚ) : ℚ := if threshold_pct ≠ 0 then threshold_pct / 100 else 0

/-- Embedding of `simulate_sdca` (app.py lines 128-184); same empty-frame
`KeyError` behaviour as the standard simulator. -/
def simulate_sdca (prices : List Sample) (base threshold_pct : ℚ)
    (max_k : Option ℤ) : Except String (List LedgerRow) :=
  let rows := sdcaGo base (sdcaG threshold_pct) max_k ⟨none, 0, 0, 0⟩ prices
  if rows = [] then .error "KeyError: Date"
  else .ok (rows.map addProjection)

/-- State trace of a `simulate_sdca` run, from the run's parameters. -/
def sdcaStatesOf (prices : List Sample) (base threshold_pct : ℚ)
    (max_k : Option ℤ) : List SState :=
  sdcaStates base (sdcaG threshold_pct) max_k ⟨none, 0, 0, 0⟩ prices

/-- Rows of a successful run (`[]` on the error path). -/
def okRows : Except String (List LedgerRow) → List LedgerRow
  | .ok l => l
  | .error _ => []

/-- Sortedness invariant of a `PriceSeries` (spec §3): strictly increasing,
hence deduplicated, timestamps. -/
def SortedSeries (df : List Sample) : Prop :=
  List.Pairwise (fun a b : Sample => a.1 < b.1) df

instance : DecidablePred SortedSeries := fun df =>
  inferInstanceAs (Decidable (List.Pairwise _ df))

/-! ### Basic structural lemmas about the SDCA loop -/

theorem sdcaStep_prev (base g : ℚ) (max_k : Option ℤ) (st : SState) (x : Sample) :
    (sdcaStep base g max_k st x).1.prev = some x.2 := rfl

theorem sdcaStep_first (base g : ℚ) (max_k : Option ℤ) (st : SState) (x : Sample)
    (h : st.prev = none) :
    sdcaStep base g max_k st x =
      (⟨some x.2, st.skip, st.cumUnits + (if 0 < base then base / x.2 else 0),
        st.totalInvested + base⟩,
       ⟨x.1, x.2, base, if 0 < base then base / x.2 else 0,
        st.cumUnits + (if 0 < base then base / x.2 else 0),
        st.totalInvested + base, "base (first)", st.skip, 1⟩) := by
  simp [sdcaStep, sdcaDecide, h]

theorem sdcaStep_skip (base g : ℚ) (max_k : Option ℤ) (st : SState) (x : Sample)
    (pp : ℚ) (h : st.prev = some pp) (hs : 0 < st.skip) :
    sdcaStep base g max_k st x =
      (⟨some x.2, st.skip - 1, st.cumUnits, st.totalInvested⟩,
       ⟨x.1, x.2, 0, 0, st.cumUnits, st.totalInvested,
        skipAction st.skip, st.skip - 1, 1⟩) := by
  simp [sdcaStep, sdcaDecide, h, hs]

theorem sdcaGo_length (base g : ℚ) (max_k : Option ℤ) (st : SState) (l : List Sample) :
    (sdcaGo base g max_k st l).length = l.length := by
  induction l generalizing st with
  | nil => rfl
  | cons x rest ih => simp [sdcaGo, ih]

theorem sdcaStates_length (base g : ℚ) (max_k : Option ℤ) (st : SState) (l : List Sample) :
    (sdcaStates base g max_k st l).length = l.length + 1 := by
  induction l generalizing st with
  | nil => rfl
  | cons x rest ih => simp [sdcaStates, ih]

theorem sdcaStates_get_zero (base g : ℚ) (max_k : Option ℤ) (st : SState)
    (l : List Sample) : (sdcaStates base g max_k st l)[0]? = some st := by
  cases l <;> simp [sdcaStates]

theorem sdcaStates_get_succ (base g : ℚ) (max_k : Option ℤ) (st : SState)
    (l : List Sample) (i : ℕ) :
    (sdcaStates base g max_k st l)[i + 1]? =
      ((sdcaStates base g max_k st l)[i]?).bind fun s =>
        (l[i]?).map fun x => (sdcaStep base g max_k s x).1 := by
  induction l generalizing st i with
  | nil => cases i <;> rfl
  | cons x rest ih =>
    cases i with
    | zero => simp [sdcaStates, sdcaStates_get_zero]
    | succ j => simpa [sdcaStates] using ih ((sdcaStep base g max_k st x).1) j

theorem sdcaGo_get (base g : ℚ) (max_k : Option ℤ) (st : SState)
    (l : List Sample) (i : ℕ) :
    (sdcaGo base g max_k st l)[i]? =
      ((sdcaStates base g max_k st l)[i]?).bind fun s =>
        (l[i]?).map fun x => (sdcaStep base g max_k s x).2 := by
  induction l generalizing st i with
  | nil => cases i <;> rfl
  | cons x rest ih =>
    cases i with
    | zero => simp [sdcaGo, sdcaStates, sdcaStates_get_zero]
    | succ j => simpa [sdcaGo, sdcaStates] using ih ((sdcaStep base g max_k st x).1) j

/-! ### Basic structural lemmas about the standard DCA loop -/

theorem stdGo_length (base cu ti : ℚ) (l : List Sample) :
    (stdGo base cu ti l).length = l.length := by
  induction l generalizing cu ti with
  | nil => rfl
  | cons x rest ih => simp [stdGo, ih]

theorem stdGo_totalInvested (base : ℚ) (l : List Sample) :
    ∀ (cu ti : ℚ) (i : ℕ) (r : Row), (stdGo base cu ti l)[i]? = some r →
      r.totalInvested = ti + (i + 1 : ℕ) * base := by
  induction l with
  | nil => intro cu ti i r h; simp [stdGo] at h
  | cons x rest ih =>
    intro cu ti i r h
    cases i with
    | zero =>
      obtain ⟨dt, price⟩ := x
      simp [stdGo] at h
      simp [← h]
    | succ j =>
      obtain ⟨dt, price⟩ := x
      simp only [stdGo, List.getElem?_cons_succ] at h
      have := ih (cu + base / price) (ti + base) j r h
      rw [this]
      push_cast
      ring

theorem stdGo_cum_gt (base : ℚ) (hb : 0 < base) (l : List Sample)
    (hpos : ∀ s ∈ l, 0 < s.2) :
    ∀ (cu ti : ℚ), ∀ r ∈ stdGo base cu ti l, cu < r.cumUnits := by
  induction l with
  | nil => intro cu ti r h; simp [stdGo] at h
  | cons x rest ih =>
    intro cu ti r h
    obtain ⟨dt, price⟩ := x
    have hp : 0 < price := hpos (dt, price) (List.mem_cons_self _ _)
    have hd : 0 < base / price := div_pos hb hp
    simp only [stdGo, List.mem_cons] at h
    rcases h with h | h
    · rw [h]; simpa using hd
    · have := ih (fun s hs => hpos s (List.mem_cons_of_mem _ hs)) (cu + base / price)
        (ti + base) r h
      linarith

theorem stdGo_chain (base : ℚ) (hb : 0 < base) (l : List Sample)
    (hpos : ∀ s ∈ l, 0 < s.2) (cu ti : ℚ) :
    List.Chain' (fun a b : Row => a.cumUnits < b.cumUnits) (stdGo base cu ti l) := by
  induction l generalizing cu ti with
  | nil => simp [stdGo]
  | cons x rest ih =>
    obtain ⟨dt, price⟩ := x
    have hpos' : ∀ s ∈ rest, 0 < s.2 := fun s hs => hpos s (List.mem_cons_of_mem _ hs)
    simp only [stdGo]
    refine List.chain'_cons'.mpr ⟨?_, ih hpos' _ _⟩
    intro y hy
    have hmem : y ∈ stdGo base (cu + base / price) (ti + base) rest :=
      List.mem_of_mem_head? hy
    simpa using stdGo_cum_gt base hb rest hpos' _ _ y hmem

/-! ### Unfolding the `Except` wrappers -/

theorem okRows_std (prices : List Sample) (base : ℚ) :
    okRows (simulate_standard_dca prices base) =
      (stdGo base 0 0 prices).map addProjection := by
  by_cases h : stdGo base 0 0 prices = [] <;>
    simp [simulate_standard_dca, okRows, h]

theorem okRows_sdca (prices : List Sample) (base thr : ℚ) (max_k : Option ℤ) :
    okRows (simulate_sdca prices base thr max_k) =
      (sdcaGo base (sdcaG thr) max_k ⟨none, 0, 0, 0⟩ prices).map addProjection := by
  by_cases h : sdcaGo base (sdcaG thr) max_k ⟨none, 0, 0, 0⟩ prices = [] <;>
    simp [simulate_sdca, okRows, h]

theorem stdGo_eq_nil (base cu ti : ℚ) (l : List Sample) :
    stdGo base cu ti l = [] ↔ l = [] := by
  constructor
  · intro h
    have := stdGo_length base cu ti l
    rw [h] at this
    exact List.length_eq_zero.mp this.symm
  · intro h; rw [h]; rfl

theorem sdcaGo_eq_nil (base g : ℚ) (max_k : Option ℤ) (st : SState) (l : List Sample) :
    sdcaGo base g max_k st l = [] ↔ l = [] := by
  constructor
  · intro h
    have := sdcaGo_length base g max_k st l
    rw [h] at this
    exact List.length_eq_zero.mp this.symm
  · intro h; rw [h]; rfl

/-- C3 counterexample: on an empty input series neither simulator returns an
empty output; both abort with the `KeyError` raised by
`pd.DataFrame([]).sort_values("Date")`. -/
theorem empty_series_error_cx :
    simulate_standard_dca [] 100 = .error "KeyError: Date" ∧
    simulate_sdca [] 100 5 none = .error "KeyError: Date" :=
  ⟨rfl, rfl⟩

/-- C3 (amended): each simulator succeeds exactly on non-empty input; an empty
aggregated series makes both raise (`pd.DataFrame([])` has no `Date` column to
sort by), so the caller's emptiness guard (`st.stop()`) is what prevents the
error, not the simulators themselves. -/
theorem simulators_ok_iff_nonempty :
    ∀ (prices : List Sample) (base thr : ℚ) (cap : Option ℤ),
      ((simulate_standard_dca prices base).isOk = true ↔ prices ≠ []) ∧
      ((simulate_sdca prices base thr cap).isOk = true ↔ prices ≠ []) := by
  intro prices base thr cap
  constructor
  · unfold simulate_standard_dca
    by_cases h : prices = []
    · simp [h, stdGo, Except.isOk, Except.toBool]
    · simp [h, (stdGo_eq_nil base 0 0 prices).not.mpr h, Except.isOk, Except.toBool]
  · unfold simulate_sdca
    by_cases h : prices = []
    · simp [h, sdcaGo, Except.isOk, Except.toBool]
    · simp [h, (sdcaGo_eq_nil base (sdcaG thr) cap ⟨none, 0, 0, 0⟩ prices).not.mpr h,
        Except.isOk, Except.toBool]

/-- C3 witness: the amended statement instantiated at an empty and at a
one-sample series. -/
theorem simulators_ok_iff_nonempty_witness :
    ¬ (simulate_standard_dca [] 100).isOk = true ∧
    (simulate_sdca [(0, 50)] 100 5 none).isOk = true :=
  ⟨fun h => (by simp : ¬ ([] : List Sample) ≠ []) ((simulators_ok_iff_nonempty [] 100 5 none).1.mp h),
   (simulators_ok_iff_nonempty [(0, 50)] 100 5 none).2.mpr (by simp)⟩

/-- C4 counterexample: a non-positive `baseAmount` together with a negative
`dipThresholdPercent` is accepted without any error, and an unknown frequency
on an empty frame is also accepted (the empty check precedes the dispatch), so
`InvalidArgument` is not raised "exactly" under the claimed conditions. -/
theorem invalid_argument_cx :
    (simulate_sdca [(0, 100)] (-5) (-3) none).isOk = true ∧
    aggregate_prices [] "Bogus" = .ok [] := by
  constructor
  · exact (simulators_ok_iff_nonempty [(0, 100)] (-5) (-3) none).2.mpr (by simp)
  · rfl

/-- C4 (amended): the only argument validation in the engine is the frequency
dispatch of `aggregate_prices`, which raises `ValueError` exactly when the
input frame is non-empty and the frequency is none of Daily/Weekly/Monthly;
`baseAmount` and `dipThresholdPercent` are not validated at all, and the
simulators succeed on any non-empty series whatever those parameters are. -/
theorem invalid_argument_exactly_unknown_frequency :
    (∀ (df : List Sample) (freq : String),
      (∃ e, aggregate_prices df freq = .error e) ↔
        df ≠ [] ∧ freq ≠ "Daily" ∧ freq ≠ "Weekly" ∧ freq ≠ "Monthly") ∧
    (∀ (prices : List Sample) (base thr : ℚ) (cap : Option ℤ), prices ≠ [] →
      ∃ l, simulate_sdca prices base thr cap = .ok l) ∧
    (∀ (prices : List Sample) (base : ℚ), prices ≠ [] →
      ∃ l, simulate_standard_dca prices base = .ok l) := by
  refine ⟨?_, ?_, ?_⟩
  · intro df freq
    unfold aggregate_prices
    by_cases h0 : df = [] <;> by_cases h1 : freq = "Daily" <;>
      by_cases h2 : freq = "Weekly" <;> by_cases h3 : freq = "Monthly" <;>
      simp [h0, h1, h2, h3]
  · intro prices base thr cap h
    unfold simulate_sdca
    simp [(sdcaGo_eq_nil base (sdcaG thr) cap ⟨none, 0, 0, 0⟩ prices).not.mpr h]
  · intro prices base h
    unfold simulate_standard_dca
    simp [(stdGo_eq_nil base 0 0 prices).not.mpr h]

/-- C4 witness: the amended statement instantiated concretely — an unknown
frequency on a non-empty frame errors, and the SDCA simulator succeeds on a
non-empty series with a negative base and threshold. -/
theorem invalid_argument_witness :
    (∃ e, aggregate_prices [(0, 1)] "Hourly" = .error e) ∧
    (∃ l, simulate_sdca [(0, 1)] (-1) (-1) none = .ok l) :=
  ⟨(invalid_argument_exactly_unknown_frequency.1 [(0, 1)] "Hourly").mpr
      (by refine ⟨by simp, by simp, by simp, by simp⟩),
   invalid_argument_exactly_unknown_frequency.2.1 [(0, 1)] (-1) (-1) none (by simp)⟩

/-- C8: in every ledger row of either simulator, `PortfolioValue` is
`CumUnits × Price`, and `ROI_%` is `(PortfolioValue / TotalInvested − 1) × 100`
when `TotalInvested > 0` and exactly `0` otherwise (the `np.where` guard). -/
theorem portfolio_and_roi_formulas :
    ∀ (prices : List Sample) (base thr : ℚ) (cap : Option ℤ) (r : LedgerRow),
      (r ∈ okRows (simulate_standard_dca prices base) ∨
        r ∈ okRows (simulate_sdca prices base thr cap)) →
      r.portfolioValue = r.cumUnits * r.price ∧
      r.roiPercent =
        if 0 < r.totalInvested
        then (r.portfolioValue / r.totalInvested - 1) * 100 else 0 := by
  intro prices base thr cap r hmem
  have h : ∃ r0 : Row, r = addProjection r0 := by
    rcases hmem with hmem | hmem
    · rw [okRows_std] at hmem
      obtain ⟨r0, _, hr0⟩ := List.mem_map.mp hmem
      exact ⟨r0, hr0.symm⟩
    · rw [okRows_sdca] at hmem
      obtain ⟨r0, _, hr0⟩ := List.mem_map.mp hmem
      exact ⟨r0, hr0.symm⟩
  obtain ⟨r0, rfl⟩ := h
  simp [addProjection]

/-- C8 witness: the formulas instantiated at the single row produced by a
one-sample standard DCA run. -/
theorem portfolio_and_roi_formulas_witness :
    (⟨0, 2, 10, 5, 5, 10, "base", 0, 1, 10, 0⟩ : LedgerRow) ∈
        okRows (simulate_standard_dca [(0, 2)] 10) ∧
      (⟨0, 2, 10, 5, 5, 10, "base", 0, 1, 10, 0⟩ : LedgerRow).portfolioValue =
        (⟨0, 2, 10, 5, 5, 10, "base", 0, 1, 10, 0⟩ : LedgerRow).cumUnits *
          (⟨0, 2, 10, 5, 5, 10, "base", 0, 1, 10, 0⟩ : LedgerRow).price := by
  have hmem : (⟨0, 2, 10, 5, 5, 10, "base", 0, 1, 10, 0⟩ : LedgerRow) ∈
      okRows (simulate_standard_dca [(0, 2)] 10) := by
    rw [okRows_std]
    norm_num [stdGo, addProjection]
  exact ⟨hmem,
    (portfolio_and_roi_formulas [(0, 2)] 10 0 none _ (Or.inl hmem)).1⟩

/-- C9: with positive prices and positive base, Standard DCA invests exactly
`(i+1) × base` cumulatively by the `i`-th interval (so `n × base` after all
`n`), and cumulative units are strictly increasing across intervals. -/
theorem std_dca_exact_invested_and_increasing_units :
    ∀ (prices : List Sample) (base : ℚ), 0 < base → (∀ s ∈ prices, 0 < s.2) →
      (okRows (simulate_standard_dca prices base)).length = prices.length ∧
      (∀ (i : ℕ) (r : LedgerRow),
          (okRows (simulate_standard_dca prices base))[i]? = some r →
          r.totalInvested = ((i + 1 : ℕ) : ℚ) * base) ∧
      List.Chain' (fun a b : LedgerRow => a.cumUnits < b.cumUnits)
        (okRows (simulate_standard_dca prices base)) := by
  intro prices base hb hpos
  rw [okRows_std]
  refine ⟨by simp [stdGo_length], ?_, ?_⟩
  · intro i r hr
    rw [List.getElem?_map] at hr
    rcases h0 : (stdGo base 0 0 prices)[i]? with _ | r0
    · rw [h0] at hr; cases hr
    · rw [h0] at hr
      cases hr
      have := stdGo_totalInvested base prices 0 0 i r0 h0
      simp [addProjection, this]
  · rw [List.chain'_map]
    have := stdGo_chain base hb prices hpos 0 0
    exact this.imp (fun a b h => by simpa [addProjection] using h)

/-- C9 witness: the statement instantiated at a concrete two-sample series. -/
theorem std_dca_exact_invested_witness :
    (okRows (simulate_standard_dca [(0, 2), (1, 4)] 2)).length = 2 ∧
    List.Chain' (fun a b : LedgerRow => a.cumUnits < b.cumUnits)
      (okRows (simulate_standard_dca [(0, 2), (1, 4)] 2)) := by
  have h := std_dca_exact_invested_and_increasing_units [(0, 2), (1, 4)] 2
    (by norm_num) (by intro s hs; simp at hs; rcases hs with rfl | rfl <;> norm_num)
  exact ⟨h.1, h.2.2⟩

/-- Every SDCA row computes units with the guarded division
`invest / price if invest > 0 else 0.0`. -/
theorem sdcaGo_units_guard (base g : ℚ) (max_k : Option ℤ) (l : List Sample) :
    ∀ (st : SState), ∀ r ∈ sdcaGo base g max_k st l,
      r.units = if 0 < r.invest then r.invest / r.price else 0 := by
  induction l with
  | nil => intro st r h; simp [sdcaGo] at h
  | cons x rest ih =>
    intro st r h
    rcases List.mem_cons.mp h with h | h
    · rw [h]; rfl
    · exact ih _ r h

/-- C10: the relative-change computation is guarded so that a zero
`prev_price` yields change `0.0` — an Armed interval whose previous price is
`0` is processed as a plain base interval whatever the current price, the
threshold and the cap — and every row's units come from the guarded division
that divides only when the invested amount is positive. -/
theorem sdca_zero_prev_guard_total :
    (∀ (base g : ℚ) (cap : Option ℤ) (st : SState) (x : Sample),
      st.prev = some 0 → st.skip = 0 →
      (sdcaStep base g cap st x).2.invest = base ∧
      (sdcaStep base g cap st x).2.action = "base" ∧
      (sdcaStep base g cap st x).2.mult = 1 ∧
      (sdcaStep base g cap st x).1.skip = 0) ∧
    (∀ (prices : List Sample) (base thr : ℚ) (cap : Option ℤ),
      ∀ r ∈ okRows (simulate_sdca prices base thr cap),
        r.units = if 0 < r.invest then r.invest / r.price else 0) := by
  constructor
  · intro base g cap st x h0 hs
    refine ⟨?_, ?_, ?_, ?_⟩ <;> simp [sdcaStep, sdcaDecide, h0, hs]
  · intro prices base thr cap r hmem
    rw [okRows_sdca] at hmem
    obtain ⟨r0, hr0, rfl⟩ := List.mem_map.mp hmem
    have := sdcaGo_units_guard base (sdcaG thr) cap prices ⟨none, 0, 0, 0⟩ r0 hr0
    simpa [addProjection] using this

/-- C10 witness: the guard instantiated at a concrete state with zero previous
price and at the row of a concrete run. -/
theorem sdca_zero_prev_guard_total_witness :
    (sdcaStep 7 (5 / 100) none ⟨some 0, 0, 0, 0⟩ (3, 2)).2.invest = 7 ∧
    (sdcaStep 7 (5 / 100) none ⟨some 0, 0, 0, 0⟩ (3, 2)).2.action = "base" := by
  have h := sdca_zero_prev_guard_total.1 7 (5 / 100) none ⟨some 0, 0, 0, 0⟩ (3, 2)
    rfl rfl
  exact ⟨h.1, h.2.1⟩

/-- Per-interval investment bound for one capped SDCA step. -/
theorem sdcaStep_invest_le (base g : ℚ) (c : ℤ) (st : SState) (x : Sample)
    (hb : 0 < base) (hc : 1 ≤ c) :
    (sdcaStep base g (some c) st x).2.invest ≤ (1 + (c : ℚ)) * base := by
  have hcq : (1 : ℚ) ≤ (c : ℚ) := by exact_mod_cast hc
  have hbase : base ≤ (1 + (c : ℚ)) * base := by nlinarith
  have hzero : (0 : ℚ) ≤ (1 + (c : ℚ)) * base := by nlinarith
  rcases st with ⟨prev, skip, cu, ti⟩
  rcases prev with _ | pp
  · simpa [sdcaStep, sdcaDecide] using hbase
  · by_cases hs : 0 < skip
    · simpa [sdcaStep, sdcaDecide, hs] using hzero
    · simp only [sdcaStep, sdcaDecide, hs, if_false]
      set change : ℚ := if pp ≠ 0 then (x.2 - pp) / pp else 0 with hchange
      by_cases hdip : change < 0 ∧ 0 < g
      · simp only [hdip, if_true]
        have hcpos : (0 : ℤ) < c := lt_of_lt_of_le one_pos hc
        have hKle : dipK g change (some c) ≤ c.toNat := by
          simp [dipK, hcpos]
        by_cases hk : 0 < dipK g change (some c)
        · simp only [hk, if_true]
          have hle : ((dipK g change (some c) : ℕ) : ℚ) ≤ (c : ℚ) := by
            have h2 : ((c.toNat : ℤ) : ℚ) = (c : ℚ) := by
              rw [Int.toNat_of_nonneg (le_of_lt hcpos)]
            calc ((dipK g change (some c) : ℕ) : ℚ)
                ≤ (c.toNat : ℚ) := by exact_mod_cast hKle
              _ = (c : ℚ) := by exact_mod_cast h2
          have : ((1 + dipK g change (some c) : ℕ) : ℚ) ≤ 1 + (c : ℚ) := by
            push_cast
            linarith
          calc base * ((1 + dipK g change (some c) : ℕ) : ℚ)
              ≤ base * (1 + (c : ℚ)) := by
                exact mul_le_mul_of_nonneg_left this (le_of_lt hb)
            _ = (1 + (c : ℚ)) * base := mul_comm _ _
        · simpa [hk] using hbase
      · simpa [hdip] using hbase

/-- C7: with a positive integer cap `c`, no SDCA interval ever invests more
than `(1 + c) × base`. -/
theorem sdca_cap_bounds_invest :
    ∀ (prices : List Sample) (base thr : ℚ) (c : ℤ), 0 < base → 0 ≤ thr → 1 ≤ c →
      ∀ r ∈ okRows (simulate_sdca prices base thr (some c)),
        r.invest ≤ (1 + (c : ℚ)) * base := by
  intro prices base thr c hb _ hc r hmem
  rw [okRows_sdca] at hmem
  obtain ⟨r0, hr0, rfl⟩ := List.mem_map.mp hmem
  suffices h : ∀ (st : SState), ∀ r1 ∈ sdcaGo base (sdcaG thr) (some c) st prices,
      r1.invest ≤ (1 + (c : ℚ)) * base by
    simpa [addProjection] using h ⟨none, 0, 0, 0⟩ r0 hr0
  clear hmem hr0
  induction prices with
  | nil => intro st r1 h1; simp [sdcaGo] at h1
  | cons x rest ih =>
    intro st r1 h1
    rcases List.mem_cons.mp h1 with h1 | h1
    · rw [h1]; exact sdcaStep_invest_le base (sdcaG thr) c st x hb hc
    · exact ih _ r1 h1

/-- C7 witness: the bound instantiated at the dip row of a run capped at
`c = 1` (20% drop, 10% threshold, so the uncapped `k` would be 2): the row
invests 200 = (1 + 1) × 100, within the bound. -/
theorem sdca_cap_bounds_invest_witness :
    (⟨1, 80, 200, 5 / 2, 7 / 2, 300, dipAction 1 2, 1, 2, 280, -20 / 3⟩ : LedgerRow) ∈
      okRows (simulate_sdca [(0, 100), (1, 80)] 100 10 (some 1)) ∧
    (⟨1, 80, 200, 5 / 2, 7 / 2, 300, dipAction 1 2, 1, 2, 280, -20 / 3⟩ :
      LedgerRow).invest ≤ (1 + ((1 : ℤ) : ℚ)) * 100 := by
  have hmem : (⟨1, 80, 200, 5 / 2, 7 / 2, 300, dipAction 1 2, 1, 2, 280, -20 / 3⟩ :
      LedgerRow) ∈ okRows (simulate_sdca [(0, 100), (1, 80)] 100 10 (some 1)) := by
    rw [okRows_sdca]
    norm_num [sdcaGo, sdcaStep, sdcaDecide, dipK, sdcaG, addProjection, abs_of_nonneg,
      show Int.toNat 2 = 2 from rfl, show Int.toNat 1 = 1 from rfl]
  exact ⟨hmem, sdca_cap_bounds_invest [(0, 100), (1, 80)] 100 10 1 (by norm_num)
    (by norm_num) (by norm_num) _ hmem⟩

/-- With `g = 0` the dip branch is unreachable, so from any armed state the
SDCA loop produces exactly the standard DCA rows. -/
theorem sdcaGo_zero_g_eq_stdGo (base : ℚ) (max_k : Option ℤ) (hb : 0 < base) :
    ∀ (l : List Sample) (pp cu ti : ℚ),
      sdcaGo base 0 max_k ⟨some pp, 0, cu, ti⟩ l = stdGo base cu ti l := by
  intro l
  induction l with
  | nil => intro pp cu ti; rfl
  | cons x rest ih =>
    intro pp cu ti
    obtain ⟨dt, price⟩ := x
    have hstep : sdcaStep base 0 max_k ⟨some pp, 0, cu, ti⟩ (dt, price) =
        (⟨some price, 0, cu + base / price, ti + base⟩,
         ⟨dt, price, base, base / price, cu + base / price, ti + base, "base", 0, 1⟩) := by
      simp [sdcaStep, sdcaDecide, hb, lt_irrefl]
    simp only [sdcaGo, hstep, stdGo]
    rw [ih price (cu + base / price) (ti + base)]

/-- Replace the first ledger row's action tag by `"base (first)"`. -/
def setFirstActionFirst : List LedgerRow → List LedgerRow
  | [] => []
  | r :: rest => { r with action := "base (first)" } :: rest

/-- C6 counterexample: with threshold 0 the two ledgers are not identical with
action "base" throughout — the SDCA run tags its first interval
`"base (first)"` while Standard DCA tags it `"base"`, so the outputs differ. -/
theorem sdca_zero_threshold_cx :
    (okRows (simulate_sdca [(0, 4)] 4 0 none)).map LedgerRow.action = ["base (first)"] ∧
    (okRows (simulate_standard_dca [(0, 4)] 4)).map LedgerRow.action = ["base"] ∧
    okRows (simulate_sdca [(0, 4)] 4 0 none) ≠
      okRows (simulate_standard_dca [(0, 4)] 4) := by
  refine ⟨?_, ?_, ?_⟩
  · rw [okRows_sdca]
    norm_num [sdcaGo, sdcaStep, sdcaDecide, sdcaG, addProjection]
  · rw [okRows_std]
    norm_num [stdGo, addProjection]
  · intro h
    have h1 : (okRows (simulate_sdca [(0, 4)] 4 0 none)).map LedgerRow.action =
        ["base (first)"] := by
      rw [okRows_sdca]
      norm_num [sdcaGo, sdcaStep, sdcaDecide, sdcaG, addProjection]
    have h2 : (okRows (simulate_standard_dca [(0, 4)] 4)).map LedgerRow.action =
        ["base"] := by
      rw [okRows_std]
      norm_num [stdGo, addProjection]
    rw [h, h2] at h1
    exact absurd h1 (by simp)

/-- C6 (amended): for every series and positive base, SDCA with threshold 0
produces the same ledger as Standard DCA field for field — invest, units and
all derived columns included — except that the first interval keeps the tag
`"base (first)"` where Standard DCA writes `"base"`; every later action tag is
`"base"`. -/
theorem sdca_zero_threshold_eq_std :
    ∀ (prices : List Sample) (base : ℚ) (cap : Option ℤ), 0 < base →
      okRows (simulate_sdca prices base 0 cap) =
        setFirstActionFirst (okRows (simulate_standard_dca prices base)) := by
  intro prices base cap hb
  rw [okRows_sdca, okRows_std]
  have hg : sdcaG 0 = 0 := by simp [sdcaG]
  rw [hg]
  cases prices with
  | nil => rfl
  | cons x rest =>
    obtain ⟨dt, price⟩ := x
    have hstep : sdcaStep base 0 cap ⟨none, 0, 0, 0⟩ (dt, price) =
        (⟨some price, 0, 0 + base / price, 0 + base⟩,
         ⟨dt, price, base, base / price, 0 + base / price, 0 + base,
          "base (first)", 0, 1⟩) := by
      simp [sdcaStep, sdcaDecide, hb]
    simp only [sdcaGo, hstep, stdGo]
    rw [sdcaGo_zero_g_eq_stdGo base cap hb rest price (0 + base / price) (0 + base)]
    simp [setFirstActionFirst, addProjection]

/-- C6 witness: the amended equality instantiated at a concrete two-sample
series. -/
theorem sdca_zero_threshold_eq_std_witness :
    okRows (simulate_sdca [(0, 4), (1, 2)] 4 0 none) =
      setFirstActionFirst (okRows (simulate_standard_dca [(0, 4), (1, 2)] 4)) :=
  sdca_zero_threshold_eq_std [(0, 4), (1, 2)] 4 none (by norm_num)

/-- C1 counterexample: `prev_price` IS updated while skipping.  With series
`[100, 80, 90, 100, 90]`, base 100, threshold 10%, no cap, the dip at interval
1 (100→80, `k = 2`) opens a two-interval skip window that begins at price 80;
entering interval 2 the state is Skipping (`skipsRemaining = 2 > 0`) with
`previousPrice = 80`, yet after that skipped interval `previousPrice` has
become 90, and interval 4 (price 90) is compared against 100 — the last
skipped price — detecting a 10% dip and investing 200, whereas a baseline
frozen at 80 (the price at which the skip sequence began) would see a rise and
invest only the base 100. -/
theorem sdca_prev_frozen_while_skipping_cx :
    (sdcaStatesOf [(0, 100), (1, 80), (2, 90), (3, 100), (4, 90)] 100 10 none)[2]? =
      some ⟨some 80, 2, 19 / 4, 400⟩ ∧
    (sdcaStatesOf [(0, 100), (1, 80), (2, 90), (3, 100), (4, 90)] 100 10 none)[3]? =
      some ⟨some 90, 1, 19 / 4, 400⟩ ∧
    ((okRows (simulate_sdca [(0, 100), (1, 80), (2, 90), (3, 100), (4, 90)] 100 10 none)).map
      LedgerRow.invest)[4]? = some 200 := by
  refine ⟨?_, ?_, ?_⟩
  · norm_num [sdcaStatesOf, sdcaStates, sdcaStep, sdcaDecide, dipK, sdcaG, abs_of_nonneg,
      show Int.toNat 2 = 2 from rfl, show Int.toNat 1 = 1 from rfl]
  · norm_num [sdcaStatesOf, sdcaStates, sdcaStep, sdcaDecide, dipK, sdcaG, abs_of_nonneg,
      show Int.toNat 2 = 2 from rfl, show Int.toNat 1 = 1 from rfl]
  · rw [okRows_sdca]
    norm_num [sdcaGo, sdcaStep, sdcaDecide, dipK, sdcaG, addProjection, abs_of_nonneg,
      show Int.toNat 2 = 2 from rfl, show Int.toNat 1 = 1 from rfl]

/-- C1 (amended): `prev_price = price` runs unconditionally at the end of
every loop iteration (app.py line 178), so after each interval — skipped or
not — `previousPrice` is the price of that very interval; the dip-detection
baseline after a skip window closes is therefore the price of the last skipped
interval, not the price at which the skip sequence began. -/
theorem sdca_prev_updated_every_interval :
    ∀ (prices : List Sample) (base thr : ℚ) (cap : Option ℤ) (i : ℕ) (x : Sample)
      (st' : SState),
      prices[i]? = some x →
      (sdcaStatesOf prices base thr cap)[i + 1]? = some st' →
      st'.prev = some x.2 := by
  intro prices base thr cap i x st' hx hst
  unfold sdcaStatesOf at hst
  rw [sdcaStates_get_succ] at hst
  rcases h0 : (sdcaStates base (sdcaG thr) cap ⟨none, 0, 0, 0⟩ prices)[i]? with _ | s
  · rw [h0] at hst; cases hst
  · rw [h0, hx] at hst
    simp only [Option.some_bind, Option.map_some'] at hst
    cases hst
    exact sdcaStep_prev base (sdcaG thr) cap s x

/-- C1 witness: the amended statement instantiated at a two-sample run. -/
theorem sdca_prev_updated_witness :
    (sdcaStatesOf [(0, 5), (1, 7)] 1 0 none)[2]? =
      some ⟨some 7, 0, 12 / 35, 2⟩ ∧
    (⟨some 7, 0, 12 / 35, 2⟩ : SState).prev = some (7 : ℚ) := by
  have h : (sdcaStatesOf [(0, 5), (1, 7)] 1 0 none)[2]? =
      some ⟨some 7, 0, 12 / 35, 2⟩ := by
    norm_num [sdcaStatesOf, sdcaStates, sdcaStep, sdcaDecide, sdcaG]
  exact ⟨h, sdca_prev_updated_every_interval [(0, 5), (1, 7)] 1 0 none 1 (1, 7) _
    (by norm_num) h⟩

/-- A recorded multiplier different from `1` can only come from the dip
branch, and then it determines the invested amount, the recorded and carried
skip counts, and the action tag. -/
theorem sdcaStep_mult_inv (base g : ℚ) (mk : Option ℤ) (st : SState) (x : Sample) (k : ℕ)
    (hk : 0 < k) (hm : (sdcaStep base g mk st x).2.mult = 1 + k) :
    (sdcaStep base g mk st x).2.invest = base * ((1 + k : ℕ) : ℚ) ∧
    (sdcaStep base g mk st x).2.skipsLeft = k ∧
    (sdcaStep base g mk st x).1.skip = k ∧
    (sdcaStep base g mk st x).2.action = dipAction k (1 + k) := by
  rcases st with ⟨prev, skip, cu, ti⟩
  rcases prev with _ | pp
  · simp [sdcaStep, sdcaDecide] at hm
    omega
  · by_cases hs : 0 < skip
    · simp [sdcaStep, sdcaDecide, hs] at hm
      omega
    · simp only [sdcaStep, sdcaDecide, hs, if_false] at hm ⊢
      set change : ℚ := if pp ≠ 0 then (x.2 - pp) / pp else 0 with hchange
      by_cases hdip : change < 0 ∧ 0 < g
      · simp only [hdip, if_true] at hm ⊢
        by_cases hkk : 0 < dipK g change mk
        · simp only [hkk, if_true] at hm ⊢
          have heq : dipK g change mk = k := by simpa using hm
          simp [heq]
        · simp [hkk] at hm
          omega
      · simp [hdip] at hm
        omega

theorem getElem?_some_of_le {α : Type} (l : List α) {i j : ℕ} {x : α}
    (h : l[i]? = some x) (hj : j ≤ i) : ∃ y, l[j]? = some y := by
  have hi : i < l.length := by
    by_contra hge
    rw [List.getElem?_eq_none (le_of_not_lt hge)] at h
    cases h
  exact ⟨l[j], List.getElem?_eq_getElem (lt_of_le_of_lt hj hi)⟩

/-- While the carried skip count is positive the loop decrements it by exactly
one per interval, and the previous price stays set. -/
theorem sdcaStates_skip_run (base g : ℚ) (mk : Option ℤ) (st0 : SState)
    (prices : List Sample) :
    ∀ (j n : ℕ) (s : SState),
      (sdcaStates base g mk st0 prices)[n]? = some s →
      s.prev ≠ none → j ≤ s.skip →
      ∀ s', (sdcaStates base g mk st0 prices)[n + j]? = some s' →
        s'.skip = s.skip - j ∧ s'.prev ≠ none := by
  intro j
  induction j with
  | zero =>
    intro n s hn hprev _ s' hs'
    rw [Nat.add_zero, hn] at hs'
    cases hs'
    exact ⟨by omega, hprev⟩
  | succ j ih =>
    intro n s hn hprev hj s' hs'
    obtain ⟨s1, hs1n⟩ : ∃ y, (sdcaStates base g mk st0 prices)[n + 1]? = some y :=
      getElem?_some_of_le _ hs' (by omega)
    rcases hx : prices[n]? with _ | x
    · rw [sdcaStates_get_succ, hn, hx] at hs1n
      simp at hs1n
    · have hkey : (sdcaStates base g mk st0 prices)[n + 1]? =
          some (sdcaStep base g mk s x).1 := by
        rw [sdcaStates_get_succ, hn, hx]
        rfl
      rcases hpp : s.prev with _ | pp
      · exact absurd hpp hprev
      · have hskip : 0 < s.skip := by omega
        have hstep := sdcaStep_skip base g mk s x pp hpp hskip
        have hst1 : (sdcaStep base g mk s x).1 =
            ⟨some x.2, s.skip - 1, s.cumUnits, s.totalInvested⟩ := by rw [hstep]
        have hres := ih (n + 1) _ hkey
          (by rw [hst1]; simp)
          (by rw [hst1]; show j ≤ s.skip - 1; omega)
          s' (by rwa [show n + 1 + j = n + (j + 1) from by omega])
        rw [hst1] at hres
        obtain ⟨h1, h2⟩ := hres
        simp only [] at h1
        refine ⟨?_, h2⟩
        have h1' : s'.skip = s.skip - 1 - j := h1
        omega

/-- C5: any interval whose recorded multiplier is `1 + k` with `k > 0` is a
dip interval: it invests `base × (1 + k)`, records `skipsRemainingAfter = k`,
and each of the next `k` intervals (as far as the series extends) is a "skip"
interval with zero investment and zero units whose `skipsRemainingAfter`
decrements by exactly 1, reaching 0 exactly at the last interval of the skip
window. -/
theorem sdca_dip_opens_skip_window :
    ∀ (prices : List Sample) (base thr : ℚ) (cap : Option ℤ) (i k : ℕ) (r : LedgerRow),
      (okRows (simulate_sdca prices base thr cap))[i]? = some r →
      r.mult = 1 + k → 0 < k →
      r.invest = base * ((1 + k : ℕ) : ℚ) ∧
      r.skipsLeft = k ∧
      r.action = dipAction k (1 + k) ∧
      ∀ (j : ℕ) (r' : LedgerRow), 1 ≤ j → j ≤ k →
        (okRows (simulate_sdca prices base thr cap))[i + j]? = some r' →
        r'.action = skipAction (k - j + 1) ∧ r'.invest = 0 ∧ r'.units = 0 ∧
        r'.skipsLeft = k - j ∧ (r'.skipsLeft = 0 ↔ j = k) := by
  intro prices base thr cap i k r hr hm hk
  rw [okRows_sdca, List.getElem?_map] at hr
  rcases h0 : (sdcaGo base (sdcaG thr) cap ⟨none, 0, 0, 0⟩ prices)[i]? with _ | r0
  · rw [h0] at hr; cases hr
  rw [h0] at hr
  simp only [Option.map_some'] at hr
  have hrr : r = addProjection r0 := by injection hr with h; exact h.symm
  subst hrr
  have hgo := sdcaGo_get base (sdcaG thr) cap ⟨none, 0, 0, 0⟩ prices i
  rw [h0] at hgo
  rcases hsI : (sdcaStates base (sdcaG thr) cap ⟨none, 0, 0, 0⟩ prices)[i]? with _ | sI
  · rw [hsI] at hgo; simp at hgo
  rcases hxI : prices[i]? with _ | x
  · rw [hsI, hxI] at hgo; simp at hgo
  rw [hsI, hxI] at hgo
  simp only [Option.some_bind, Option.map_some'] at hgo
  have hr0 : r0 = (sdcaStep base (sdcaG thr) cap sI x).2 := by
    simpa using hgo
  subst hr0
  have hm0 : (sdcaStep base (sdcaG thr) cap sI x).2.mult = 1 + k := hm
  obtain ⟨hinv, hsl, hstskip, hact⟩ :=
    sdcaStep_mult_inv base (sdcaG thr) cap sI x k hk hm0
  refine ⟨hinv, hsl, hact, ?_⟩
  intro j r' hj1 hjk hr'
  rw [okRows_sdca, List.getElem?_map] at hr'
  rcases h0' : (sdcaGo base (sdcaG thr) cap ⟨none, 0, 0, 0⟩ prices)[i + j]? with _ | r0'
  · rw [h0'] at hr'; cases hr'
  rw [h0'] at hr'
  simp only [Option.map_some'] at hr'
  have hrr' : r' = addProjection r0' := by injection hr' with h; exact h.symm
  subst hrr'
  have hgo' := sdcaGo_get base (sdcaG thr) cap ⟨none, 0, 0, 0⟩ prices (i + j)
  rw [h0'] at hgo'
  rcases hsN : (sdcaStates base (sdcaG thr) cap ⟨none, 0, 0, 0⟩ prices)[i + j]? with _ | sN
  · rw [hsN] at hgo'; simp at hgo'
  rcases hxN : prices[i + j]? with _ | xN
  · rw [hsN, hxN] at hgo'; simp at hgo'
  rw [hsN, hxN] at hgo'
  simp only [Option.some_bind, Option.map_some'] at hgo'
  have hr0' : r0' = (sdcaStep base (sdcaG thr) cap sN xN).2 := by
    simpa using hgo' 
  subst hr0'
  have hkey : (sdcaStates base (sdcaG thr) cap ⟨none, 0, 0, 0⟩ prices)[i + 1]? =
      some (sdcaStep base (sdcaG thr) cap sI x).1 := by
    rw [sdcaStates_get_succ, hsI, hxI]
    rfl
  have hrun := sdcaStates_skip_run base (sdcaG thr) cap ⟨none, 0, 0, 0⟩ prices
    (j - 1) (i + 1) _ hkey
    (by rw [sdcaStep_prev]; simp)
    (by rw [hstskip]; omega)
    sN (by rwa [show i + 1 + (j - 1) = i + j from by omega])
  rw [hstskip] at hrun
  obtain ⟨hNskip, hNprev⟩ := hrun
  have hNpos : 0 < sN.skip := by omega
  rcases hpp : sN.prev with _ | pp
  · exact absurd hpp hNprev
  have hstep := sdcaStep_skip base (sdcaG thr) cap sN xN pp hpp hNpos
  have hrow : (sdcaStep base (sdcaG thr) cap sN xN).2 =
      ⟨xN.1, xN.2, 0, 0, sN.cumUnits, sN.totalInvested,
       skipAction sN.skip, sN.skip - 1, 1⟩ := by rw [hstep]
  rw [hrow]
  have hsk : sN.skip = k - j + 1 := by omega
  refine ⟨?_, rfl, rfl, ?_, ?_⟩
  · show skipAction sN.skip = skipAction (k - j + 1)
    rw [hsk]
  · show sN.skip - 1 = k - j
    omega
  · show sN.skip - 1 = 0 ↔ j = k
    omega

/-- C5 witness: the skip-window property instantiated at the spec's own §8
scenario `[100, 100, 80, 80, 120]`, base 100, threshold 10%, no cap, whose
dip at interval 2 has `k = 2`. -/
theorem sdca_dip_opens_skip_window_witness :
    (okRows (simulate_sdca [(0, 100), (1, 100), (2, 80), (3, 80), (4, 120)] 100 10 none))[2]? =
      some ⟨2, 80, 300, 15 / 4, 23 / 4, 500, dipAction 2 3, 2, 3, 460, -8⟩ ∧
    (okRows (simulate_sdca [(0, 100), (1, 100), (2, 80), (3, 80), (4, 120)] 100 10 none))[4]? =
      some ⟨4, 120, 0, 0, 23 / 4, 500, skipAction 1, 0, 1, 690, 38⟩ ∧
    ((⟨4, 120, 0, 0, 23 / 4, 500, skipAction 1, 0, 1, 690, 38⟩ : LedgerRow).action =
        skipAction (2 - 2 + 1) ∧
      (⟨4, 120, 0, 0, 23 / 4, 500, skipAction 1, 0, 1, 690, 38⟩ : LedgerRow).invest = 0 ∧
      (⟨4, 120, 0, 0, 23 / 4, 500, skipAction 1, 0, 1, 690, 38⟩ : LedgerRow).units = 0 ∧
      (⟨4, 120, 0, 0, 23 / 4, 500, skipAction 1, 0, 1, 690, 38⟩ : LedgerRow).skipsLeft = 2 - 2 ∧
      ((⟨4, 120, 0, 0, 23 / 4, 500, skipAction 1, 0, 1, 690, 38⟩ : LedgerRow).skipsLeft = 0 ↔
        2 = 2)) := by
  have h2 : (okRows (simulate_sdca [(0, 100), (1, 100), (2, 80), (3, 80), (4, 120)] 100 10 none))[2]? =
      some ⟨2, 80, 300, 15 / 4, 23 / 4, 500, dipAction 2 3, 2, 3, 460, -8⟩ := by
    rw [okRows_sdca]
    norm_num [sdcaGo, sdcaStep, sdcaDecide, dipK, sdcaG, addProjection, abs_of_nonneg,
      show Int.toNat 2 = 2 from rfl]
  have h4 : (okRows (simulate_sdca [(0, 100), (1, 100), (2, 80), (3, 80), (4, 120)] 100 10 none))[4]? =
      some ⟨4, 120, 0, 0, 23 / 4, 500, skipAction 1, 0, 1, 690, 38⟩ := by
    rw [okRows_sdca]
    norm_num [sdcaGo, sdcaStep, sdcaDecide, dipK, sdcaG, addProjection, abs_of_nonneg,
      show Int.toNat 2 = 2 from rfl]
  exact ⟨h2, h4,
    (sdca_dip_opens_skip_window [(0, 100), (1, 100), (2, 80), (3, 80), (4, 120)] 100 10 none
        2 2 _ h2 (by norm_num) (by norm_num)).2.2.2 2 _ (by norm_num) (by norm_num) h4⟩

theorem nextSunday_monotone : Monotone nextSunday := by
  intro a b h
  unfold nextSunday
  omega

theorem le_nextSunday (z : ℕ) : z ≤ nextSunday z := by
  unfold nextSunday
  omega

theorem monthLen_pos (i : ℕ) : 0 < monthLen i := by
  unfold monthLen
  dsimp only
  split
  · split <;> omega
  · split <;> omega

theorem monthStart_lt_succ (i : ℕ) : monthStart i < monthStart (i + 1) := by
  have := monthLen_pos i
  simp only [monthStart]
  omega

theorem monthStart_strictMono : StrictMono monthStart :=
  strictMono_nat_of_lt_succ monthStart_lt_succ

theorem self_le_monthStart (i : ℕ) : i ≤ monthStart i := by
  induction i with
  | zero => simp [monthStart]
  | succ j ih =>
    have := monthLen_pos j
    simp only [monthStart]
    omega

theorem monthIdxGo_spec (z : ℕ) :
    ∀ (fuel i : ℕ), monthStart i ≤ z → z < monthStart (i + fuel) →
      monthStart (monthIdxGo z fuel i) ≤ z ∧ z < monthStart (monthIdxGo z fuel i + 1) := by
  intro fuel
  induction fuel with
  | zero =>
    intro i h1 h2
    simp only [monthIdxGo]
    rw [Nat.add_zero] at h2
    omega
  | succ f ih =>
    intro i h1 h2
    simp only [monthIdxGo]
    split
    · next hlt => exact ⟨h1, hlt⟩
    · next hge =>
      exact ih (i + 1) (by omega) (by rwa [show i + 1 + f = i + (f + 1) from by omega])

theorem monthIdx_spec (z : ℕ) :
    monthStart (monthIdx z) ≤ z ∧ z < monthStart (monthIdx z + 1) := by
  unfold monthIdx
  exact monthIdxGo_spec z (z + 1) 0 (by simp [monthStart]) (by
    have := self_le_monthStart (z + 1)
    rw [Nat.zero_add]
    omega)

theorem monthIdx_monotone : Monotone monthIdx := by
  intro a b hab
  by_contra hlt
  push_neg at hlt
  have h1 := monthIdx_spec a
  have h2 := monthIdx_spec b
  have : monthIdx b + 1 ≤ monthIdx a := hlt
  have := monthStart_strictMono.monotone this
  omega

theorem le_monthEnd (z : ℕ) : z ≤ monthEnd z := by
  have := (monthIdx_spec z).2
  unfold monthEnd
  omega

theorem monthEnd_monotone : Monotone monthEnd := by
  intro a b hab
  unfold monthEnd
  have h := monthIdx_monotone hab
  have : monthStart (monthIdx a + 1) ≤ monthStart (monthIdx b + 1) :=
    monthStart_strictMono.monotone (by omega)
  omega

theorem rGo_head_fst (f : ℕ → ℕ) :
    ∀ (l : List Sample) (cur : Sample),
      ∃ p rest', rGo f cur l = (f cur.1, p) :: rest' := by
  intro l
  induction l with
  | nil => intro cur; exact ⟨cur.2, [], rfl⟩
  | cons x rest ih =>
    intro cur
    by_cases h : f x.1 = f cur.1
    · obtain ⟨p, rest', hp⟩ := ih x
      exact ⟨p, rest', by rw [rGo, if_pos h, hp, h]⟩
    · exact ⟨cur.2, rGo f x rest, by rw [rGo, if_neg h]⟩

theorem rGo_label_lb (f : ℕ → ℕ) (hf : Monotone f) :
    ∀ (l : List Sample) (cur : Sample),
      List.Pairwise (fun a b : Sample => a.1 < b.1) (cur :: l) →
      ∀ y ∈ rGo f cur l, f cur.1 ≤ y.1 := by
  intro l
  induction l with
  | nil =>
    intro cur _ y hy
    simp only [rGo, List.mem_singleton] at hy
    rw [hy]
  | cons x rest ih =>
    intro cur hs y hy
    obtain ⟨hhead, htail⟩ := List.pairwise_cons.mp hs
    have hcx : cur.1 < x.1 := hhead x (List.mem_cons_self _ _)
    by_cases h : f x.1 = f cur.1
    · rw [rGo, if_pos h] at hy
      have := ih x htail y hy
      omega
    · rw [rGo, if_neg h] at hy
      rcases List.mem_cons.mp hy with hy | hy
      · rw [hy]
      · have := ih x htail y hy
        have hle : f cur.1 ≤ f x.1 := hf (le_of_lt hcx)
        omega

theorem rGo_pairwise (f : ℕ → ℕ) (hf : Monotone f) :
    ∀ (l : List Sample) (cur : Sample),
      List.Pairwise (fun a b : Sample => a.1 < b.1) (cur :: l) →
      List.Pairwise (fun a b : Sample => a.1 < b.1) (rGo f cur l) := by
  intro l
  induction l with
  | nil => intro cur _; simp [rGo]
  | cons x rest ih =>
    intro cur hs
    obtain ⟨hhead, htail⟩ := List.pairwise_cons.mp hs
    have hcx : cur.1 < x.1 := hhead x (List.mem_cons_self _ _)
    by_cases h : f x.1 = f cur.1
    · rw [rGo, if_pos h]
      exact ih x htail
    · rw [rGo, if_neg h]
      refine List.pairwise_cons.mpr ⟨?_, ih x htail⟩
      intro y hy
      have h1 := rGo_label_lb f hf rest x htail y hy
      have h2 : f cur.1 ≤ f x.1 := hf (le_of_lt hcx)
      have h3 : f cur.1 ≠ f x.1 := fun hc => h hc.symm
      show f cur.1 < y.1
      omega

theorem rGo_map_snd_sublist (f : ℕ → ℕ) :
    ∀ (l : List Sample) (cur : Sample),
      List.Sublist ((rGo f cur l).map Prod.snd) ((cur :: l).map Prod.snd) := by
  intro l
  induction l with
  | nil => intro cur; simp [rGo]
  | cons x rest ih =>
    intro cur
    by_cases h : f x.1 = f cur.1
    · rw [rGo, if_pos h]
      exact (ih x).cons cur.2
    · rw [rGo, if_neg h]
      simpa using (ih x).cons₂ cur.2

theorem rGo_last_of_bucket (f : ℕ → ℕ) (hf : Monotone f) :
    ∀ (l : List Sample) (cur : Sample),
      List.Pairwise (fun a b : Sample => a.1 < b.1) (cur :: l) →
      ∀ y ∈ rGo f cur l, ∃ t0, (t0, y.2) ∈ cur :: l ∧ y.1 = f t0 ∧
        ∀ z ∈ cur :: l, f z.1 = y.1 → z.1 ≤ t0 := by
  intro l
  induction l with
  | nil =>
    intro cur _ y hy
    simp only [rGo, List.mem_singleton] at hy
    refine ⟨cur.1, ?_, ?_, ?_⟩
    · rw [hy]; simp
    · rw [hy]
    · intro z hz _
      simp only [List.mem_singleton] at hz
      rw [hz]
  | cons x rest ih =>
    intro cur hs y hy
    obtain ⟨hhead, htail⟩ := List.pairwise_cons.mp hs
    have hcx : cur.1 < x.1 := hhead x (List.mem_cons_self _ _)
    have hxle : ∀ z ∈ x :: rest, x.1 ≤ z.1 := by
      intro z hz
      rcases List.mem_cons.mp hz with hz | hz
      · rw [hz]
      · exact le_of_lt ((List.pairwise_cons.mp htail).1 z hz)
    by_cases h : f x.1 = f cur.1
    · rw [rGo, if_pos h] at hy
      obtain ⟨t0, hmem, hlab, hmax⟩ := ih x htail y hy
      refine ⟨t0, List.mem_cons_of_mem cur hmem, hlab, ?_⟩
      intro z hz hzl
      rcases List.mem_cons.mp hz with hz | hz
      · have hlt : cur.1 < (t0, y.2).1 := hhead (t0, y.2) hmem
        rw [hz]
        simp only [] at hlt
        omega
      · exact hmax z hz hzl
    · rw [rGo, if_neg h] at hy
      rcases List.mem_cons.mp hy with hy | hy
      · refine ⟨cur.1, ?_, ?_, ?_⟩
        · rw [hy]; simp
        · rw [hy]
        · intro z hz hzl
          rcases List.mem_cons.mp hz with hz | hz
          · rw [hz]
          · exfalso
            have hxz : x.1 ≤ z.1 := hxle z hz
            have h1 : f x.1 ≤ f z.1 := hf hxz
            have h2 : f cur.1 ≤ f x.1 := hf (le_of_lt hcx)
            rw [hy] at hzl
            simp only [] at hzl
            omega
      · obtain ⟨t0, hmem, hlab, hmax⟩ := ih x htail y hy
        refine ⟨t0, List.mem_cons_of_mem cur hmem, hlab, ?_⟩
        intro z hz hzl
        rcases List.mem_cons.mp hz with hz | hz
        · exfalso
          have ht0 : x.1 ≤ (t0, y.2).1 := hxle (t0, y.2) hmem
          simp only [] at ht0
          have h1 : f x.1 ≤ f t0 := hf ht0
          have h2 : f cur.1 ≤ f x.1 := hf (le_of_lt hcx)
          rw [hz] at hzl
          rw [hlab] at hzl
          omega
        · exact hmax z hz hzl

theorem bucketOf_daily : bucketOf "Daily" = fun t => t := rfl

theorem bucketOf_weekly : bucketOf "Weekly" = nextSunday := rfl

theorem bucketOf_monthly : bucketOf "Monthly" = monthEnd := rfl

theorem resampleLast_spec (f : ℕ → ℕ) (hf : Monotone f) (df : List Sample)
    (hs : SortedSeries df) :
    SortedSeries (resampleLast f df) ∧
    List.Sublist ((resampleLast f df).map Prod.snd) (df.map Prod.snd) ∧
    ∀ y ∈ resampleLast f df, ∃ t0, (t0, y.2) ∈ df ∧ y.1 = f t0 ∧
      ∀ z ∈ df, f z.1 = y.1 → z.1 ≤ t0 := by
  cases df with
  | nil => simp [resampleLast, SortedSeries]
  | cons x l =>
    exact ⟨rGo_pairwise f hf l x hs, rGo_map_snd_sublist f l x,
      rGo_last_of_bucket f hf l x hs⟩

/-- C2 (amended): for each frequency the aggregated output is sorted strictly
ascending (unique timestamps), its prices are a subsequence of the input
prices (each output price is that of the chronologically last input sample of
its bucket), and each output timestamp is the bucket's right-edge label —
identity for Daily, week-ending Sunday for Weekly, calendar month end for
Monthly — which for Weekly/Monthly is an artificial period boundary rather
than the last constituent sample's timestamp. -/
theorem aggregate_shape :
    ∀ (df : List Sample) (freq : String) (out : List Sample),
      (freq = "Daily" ∨ freq = "Weekly" ∨ freq = "Monthly") →
      SortedSeries df →
      aggregate_prices df freq = .ok out →
      SortedSeries out ∧
      List.Sublist (out.map Prod.snd) (df.map Prod.snd) ∧
      ∀ y ∈ out, ∃ t0, (t0, y.2) ∈ df ∧ y.1 = bucketOf freq t0 ∧
        ∀ z ∈ df, bucketOf freq z.1 = y.1 → z.1 ≤ t0 := by
  intro df freq out hfreq hs hok
  by_cases hne : df = []
  · subst hne
    have hout : out = [] := by
      unfold aggregate_prices at hok
      simp at hok
      exact hok
    subst hout
    simp [SortedSeries]
  rcases hfreq with hf | hf | hf
  · subst hf
    have hout : out = df := by
      rw [aggregate_prices, if_neg hne, if_pos rfl] at hok
      injection hok with h
      exact h.symm
    subst hout
    refine ⟨hs, List.Sublist.refl _, ?_⟩
    intro y hy
    refine ⟨y.1, by simpa using hy, rfl, ?_⟩
    intro z _ hzl
    rw [bucketOf_daily] at hzl
    exact le_of_eq hzl
  · subst hf
    have hout : out = resampleLast nextSunday df := by
      rw [aggregate_prices, if_neg hne, if_neg (by decide), if_pos rfl] at hok
      injection hok with h
      exact h.symm
    subst hout
    rw [bucketOf_weekly]
    exact resampleLast_spec nextSunday nextSunday_monotone df hs
  · subst hf
    have hout : out = resampleLast monthEnd df := by
      rw [aggregate_prices, if_neg hne, if_neg (by decide), if_neg (by decide),
        if_pos rfl] at hok
      injection hok with h
      exact h.symm
    subst hout
    rw [bucketOf_monthly]
    exact resampleLast_spec monthEnd monthEnd_monotone df hs

/-- C2 counterexample: weekly aggregation of Monday 1970-01-05 (day 4) and
Tuesday 1970-01-06 (day 5) emits its single row at the bin label Sunday
1970-01-11 (day 10) — an artificial period boundary that is not the timestamp
of any input sample, so the output `(timestamp, price)` sequence is not a
subsequence of the input. -/
theorem aggregate_weekly_label_cx :
    aggregate_prices [(4, 1), (5, 2)] "Weekly" = .ok [(10, 2)] ∧
    (10 : ℕ) ∉ ([(4, 1), (5, 2)] : List Sample).map Prod.fst := by
  constructor
  · rfl
  · decide

/-- C2 witness: the amended statement instantiated at the weekly aggregation
of two Monday/Tuesday samples and at a monthly aggregation spanning two
months. -/
theorem aggregate_shape_witness :
    (SortedSeries ([(10, 2)] : List Sample) ∧
      List.Sublist (([(10, 2)] : List Sample).map Prod.snd)
        (([(4, 1), (5, 2)] : List Sample).map Prod.snd) ∧
      ∀ y ∈ ([(10, 2)] : List Sample), ∃ t0,
        (t0, y.2) ∈ ([(4, 1), (5, 2)] : List Sample) ∧ y.1 = bucketOf "Weekly" t0 ∧
        ∀ z ∈ ([(4, 1), (5, 2)] : List Sample), bucketOf "Weekly" z.1 = y.1 → z.1 ≤ t0) ∧
    aggregate_prices [(4, 1), (5, 2), (40, 3)] "Monthly" = .ok [(30, 2), (58, 3)] := by
  constructor
  · exact aggregate_shape [(4, 1), (5, 2)] "Weekly" [(10, 2)]
      (Or.inr (Or.inl rfl)) (by decide) rfl
  · rfl
